import Mathlib

/-
Verification development for the zepp-extractor workout pipeline (src/main.py).

The raw encoded strings of the workout detail record are modelled as lists of
characters. Python string operations used by the source (split on a one-character
separator, strip, str.replace of one character, truthiness of a string) are
embedded as structurally recursive functions on character lists, and Python
float arithmetic is embedded as exact rational arithmetic over the values the
pipeline actually produces (integers and finite decimal fractions).
-/

/-- Whitespace test used by the model of Python str.strip. -/
def pySpace (c : Char) : Bool :=
  c = ' ' || c = '\t' || c = '\n' || c = '\r' || c = '\x0b' || c = '\x0c'

/-- Model of the Python one-character split s.split(sep): splitting an empty
string yields one empty piece, and n separators yield n+1 pieces. -/
def splitOnSep (sep : Char) : List Char → List (List Char)
  | [] => [[]]
  | c :: cs =>
    if c = sep then [] :: splitOnSep sep cs
    else
      match splitOnSep sep cs with
      | [] => [[c]]
      | piece :: pieces => (c :: piece) :: pieces

/-- Model of Python str.strip: drop whitespace from both ends. -/
def strip (s : List Char) : List Char :=
  ((s.dropWhile pySpace).reverse.dropWhile pySpace).reverse

/-- Numeric value of a list of decimal digit characters (most significant first). -/
def digitsVal (s : List Char) : Nat :=
  s.foldl (fun acc c => acc * 10 + (c.toNat - '0'.toNat)) 0

/-- Model of the Python int(str) constructor on the decimal forms the pipeline
can meet: optional surrounding whitespace, an optional sign, then a non-empty
run of decimal digits; anything else raises ValueError, modelled as none. -/
def pyInt (s : List Char) : Option Int :=
  match strip s with
  | [] => none
  | '+' :: cs => if cs ≠ [] ∧ cs.all Char.isDigit then some (digitsVal cs) else none
  | '-' :: cs => if cs ≠ [] ∧ cs.all Char.isDigit then some (-(digitsVal cs : Int)) else none
  | cs => if cs.all Char.isDigit then some (digitsVal cs) else none

/-- Unsigned part of the Python float(str) constructor on the plain decimal
forms the pace stream carries: digits with at most one decimal point and at
least one digit overall. -/
def pyFloatBody (cs : List Char) : Option ℚ :=
  match splitOnSep '.' cs with
  | [a] => if a ≠ [] ∧ a.all Char.isDigit then some (digitsVal a) else none
  | [a, b] =>
    if (a ≠ [] ∨ b ≠ []) ∧ a.all Char.isDigit ∧ b.all Char.isDigit then
      some ((digitsVal a : ℚ) + (digitsVal b : ℚ) / (10 ^ b.length))
    else none
  | _ => none

/-- Model of the Python float(str) constructor on plain decimal forms
(optional whitespace and sign, digits with at most one decimal point);
a parse failure raises ValueError, modelled as none. -/
def pyFloat (s : List Char) : Option ℚ :=
  match strip s with
  | [] => none
  | '+' :: cs => pyFloatBody cs
  | '-' :: cs => (pyFloatBody cs).map (fun q => -q)
  | cs => pyFloatBody cs

/-- Source parse_times (src/main.py lines 57-60): split the time string on
the semicolon, strip each piece, keep the non-empty ones. -/
def parse_times (t_str : List Char) : List (List Char) :=
  ((splitOnSep ';' t_str).map strip).filter (fun t => !t.isEmpty)

/-- Loop body of parse_hr (src/main.py lines 71-79): for each segment, split
on the comma; when there are at least two fields, append the second field
parsed as an integer, falling back to 0 on a ValueError; segments with fewer
than two fields append nothing. -/
def hrTokens : List (List Char) → List Int
  | [] => []
  | seg :: rest =>
    match splitOnSep ',' seg with
    | _ :: p1 :: _ => (pyInt p1).getD 0 :: hrTokens rest
    | _ => hrTokens rest

/-- Source parse_hr (src/main.py lines 63-81): on a non-empty string, split on
the semicolon, drop empty segments and run the token loop; an empty string
yields the empty list. -/
def parse_hr (hr_str : List Char) : List Int :=
  if hr_str = [] then []
  else hrTokens ((splitOnSep ';' hr_str).filter (fun seg => !seg.isEmpty))

/-- Source parse_pace (src/main.py lines 84-87): replace every comma by a
period, split on the semicolon, strip each piece, keep the non-empty ones. -/
def parse_pace (pace_str : List Char) : List (List Char) :=
  let s := pace_str.map (fun c => if c = ',' then '.' else c)
  ((splitOnSep ';' s).map strip).filter (fun t => !t.isEmpty)

/-- Source generate_timestamps (src/main.py lines 90-92): one entry per second
offset 0, 1, ..., count-1; the wall-clock formatting belongs to the excluded
report sink, so each entry is modelled by its second offset. -/
def generate_timestamps (count : Nat) : List Nat :=
  List.range count

/-- Common prefix length, src/main.py line 203: the minimum of the three
decoded sequence lengths. -/
def num_points (raw_times : List (List Char)) (hr_values : List Int)
    (raw_paces : List (List Char)) : Nat :=
  min (min raw_times.length hr_values.length) raw_paces.length

/-- Source line 212: the first decoded token taken as absolute, defaulting to
70 for an empty decoded sequence. -/
def base_hr (hr_values : List Int) : ℚ :=
  match hr_values with
  | [] => 70
  | v :: _ => (v : ℚ)

/-- Source line 213: the tokens after the first, used as signed increments. -/
def hr_differences (hr_values : List Int) : List Int :=
  if hr_values.length > 1 then hr_values.tail else []

/-- Loop of source lines 214-218: running cumulative totals of the increments
starting from the given base. -/
def cumHR (c : ℚ) : List Int → List ℚ
  | [] => []
  | d :: ds => (c + (d : ℚ)) :: cumHR (c + (d : ℚ)) ds

/-- The absolute heart-rate series before length adjustment (source lines
212-218): the base followed by the running totals. -/
def current_hr_raw (hr_values : List Int) : List ℚ :=
  base_hr hr_values :: cumHR (base_hr hr_values) (hr_differences hr_values)

/-- Source line 219: right-pad with the last computed value, then truncate to
the target length. -/
def current_hr (hr_values : List Int) (n : Nat) : List ℚ :=
  (current_hr_raw hr_values ++
    List.replicate n ((current_hr_raw hr_values).getLastD 0)).take n

/-- Source lines 221-222: the variation series, a leading 0 followed by the
raw increments, truncated to the target length. -/
def hr_variations (hr_values : List Int) (n : Nat) : List Int :=
  ((0 : Int) :: hr_differences hr_values).take n

/-- Model of the guarded list comprehension of source line 225: parse every
token as a float, failing as a whole if any single token fails. -/
def floatList : List (List Char) → Option (List ℚ)
  | [] => some []
  | x :: xs =>
    match pyFloat x, floatList xs with
    | some v, some vs => some (v :: vs)
    | _, _ => none

/-- Source lines 224-227: parse the first n pace tokens as floats; if any
token fails, the whole series degrades to n zeros. -/
def processed_pace (raw_paces : List (List Char)) (n : Nat) : List ℚ :=
  match floatList (raw_paces.take n) with
  | some vs => vs
  | none => List.replicate n 0

/-- Model of Python max() on a list, as used on the non-empty absolute series
(source line 229); the empty case is unreachable there. -/
def pyMax (l : List ℚ) : ℚ :=
  match l with
  | [] => 0
  | x :: xs => xs.foldl max x

/-- Model of Python min() on a list (source line 230). -/
def pyMin (l : List ℚ) : ℚ :=
  match l with
  | [] => 0
  | x :: xs => xs.foldl min x

/-- Source lines 234-239: population variance of the variation series after
dropping its first element, 0 when at most one element is present. -/
def hr_variance (hrv : List Int) : ℚ :=
  if hrv.length > 1 then
    let diffs : List ℚ := (hrv.drop 1).map (fun d => (d : ℚ))
    let mean_diff : ℚ := diffs.sum / (diffs.length : ℚ)
    ((diffs.map (fun d => (d - mean_diff) ^ 2)).sum) / (diffs.length : ℚ)
  else 0

/-- Population variance as the spec words it: the mean of squared deviations
from the mean. Written from the spec for comparison with hr_variance. -/
def popVariance (l : List ℚ) : ℚ :=
  ((l.map (fun d => (d - l.sum / (l.length : ℚ)) ^ 2)).sum) / (l.length : ℚ)

/-- Source line 22: the fixed theoretical maximum heart rate. -/
def hr_max_theoretical : ℚ := 196

/-- Source lines 241-247: the five zone bands, in dictionary order Z1..Z5,
each a half-open interval given by its lower and upper bound. -/
def hr_zones : List (ℚ × ℚ) :=
  [ (0.5 * hr_max_theoretical, 0.6 * hr_max_theoretical),
    (0.6 * hr_max_theoretical, 0.7 * hr_max_theoretical),
    (0.7 * hr_max_theoretical, 0.8 * hr_max_theoretical),
    (0.8 * hr_max_theoretical, 0.9 * hr_max_theoretical),
    (0.9 * hr_max_theoretical, hr_max_theoretical) ]

/-- Inner loop of source lines 249-253: the index of the first band, in listed
order, whose half-open interval contains the sample; none when no band does. -/
def firstZone (h : ℚ) : List (ℚ × ℚ) → Option Nat
  | [] => none
  | z :: zs =>
    if z.1 ≤ h ∧ h < z.2 then some 0
    else (firstZone h zs).map (fun j => j + 1)

/-- Source lines 248-253 in aggregate: the tally a band receives is the number
of samples whose first containing band is that band. -/
def zone_count (hrs : List ℚ) (j : Nat) : Nat :=
  hrs.countP (fun h => decide (firstZone h hr_zones = some j))

/-- Source line 254: a band's percentage is its tally divided by the common
prefix length, times 100. -/
def zone_percentage (hrs : List ℚ) (n : Nat) (j : Nat) : ℚ :=
  ((zone_count hrs j : ℚ) / (n : ℚ)) * 100

/-- Lower bound of band j (0 outside the band list); spec-side helper for
stating membership in a band. -/
def zone_low (j : Nat) : ℚ := (hr_zones.getD j (0, 0)).1

/-- Upper bound of band j (0 outside the band list). -/
def zone_high (j : Nat) : ℚ := (hr_zones.getD j (0, 0)).2

/-- Membership of a sample in band j of the listed zones: written from the
spec, for comparison with the classification loop. -/
def memZone (j : Nat) (h : ℚ) : Prop :=
  j < hr_zones.length ∧ zone_low j ≤ h ∧ h < zone_high j

instance (j : Nat) (h : ℚ) : Decidable (memZone j h) := by
  unfold memZone; infer_instance

/-- State of the effort/rest automaton of source lines 256-278. -/
structure SegState where
  effort_durations : List Nat
  rest_durations : List Nat
  state : Bool
  duration : Nat
deriving DecidableEq, Repr

/-- Source line 258: the automaton starts idle (false) when the first sample
equals 0 and in effort (true) otherwise. -/
def initial_state (pace : List ℚ) : Bool :=
  match pace with
  | [] => false
  | p0 :: _ => if p0 = 0 then false else true

/-- Loop body of source lines 260-274: on a positive sample stay in effort or
close the rest run; otherwise stay idle or close the effort run. -/
def segStep (s : SegState) (p : ℚ) : SegState :=
  if 0 < p then
    if s.state then { s with duration := s.duration + 1 }
    else { s with rest_durations := s.rest_durations ++ [s.duration],
                  duration := 1, state := true }
  else
    if s.state = false then { s with duration := s.duration + 1 }
    else { s with effort_durations := s.effort_durations ++ [s.duration],
                  duration := 1, state := false }

/-- Source lines 275-278: flush the open run into its list at end of input. -/
def segFlush (s : SegState) : List Nat × List Nat :=
  if s.state then (s.effort_durations ++ [s.duration], s.rest_durations)
  else (s.effort_durations, s.rest_durations ++ [s.duration])

/-- Source lines 256-278 in full: run the automaton over the pace series and
return (effort_durations, rest_durations). The empty case is unreachable in
the source (guarded by the common prefix length check). -/
def effortRest (pace : List ℚ) : List Nat × List Nat :=
  match pace with
  | [] => ([], [])
  | _ :: _ =>
    segFlush (pace.foldl segStep
      { effort_durations := [], rest_durations := [],
        state := initial_state pace, duration := 0 })

/-- Source lines 280-281: arithmetic mean of a duration list, 0 when empty. -/
def avg_duration (l : List Nat) : ℚ :=
  if l = [] then 0 else (l.sum : ℚ) / (l.length : ℚ)

/-- Run-length accumulation over a Boolean state trace, written from the
spec wording: maximal runs of equal states, in order, with their lengths. -/
def runsAux (b : Bool) (n : Nat) : List Bool → List (Bool × Nat)
  | [] => [(b, n)]
  | c :: cs => if c = b then runsAux b (n + 1) cs else (b, n) :: runsAux c 1 cs

/-- Maximal runs of a Boolean state trace (spec-side). -/
def maximalRuns : List Bool → List (Bool × Nat)
  | [] => []
  | b :: bs => runsAux b 1 bs

/-- Lengths of the maximal runs of positive samples (spec-side). -/
def effortRuns (pace : List ℚ) : List Nat :=
  ((maximalRuns (pace.map (fun p => decide (0 < p)))).filter
    (fun r => r.1)).map (fun r => r.2)

/-- Lengths of the maximal runs of non-positive samples (spec-side). -/
def restRuns (pace : List ℚ) : List Nat :=
  ((maximalRuns (pace.map (fun p => decide (0 < p)))).filter
    (fun r => !r.1)).map (fun r => r.2)

/-- Count of moving samples, source line 287. -/
def moving_count (pace : List ℚ) : Nat :=
  pace.countP (fun p => decide (0 < p))

/-- Source line 288: percentage of moving samples over the common prefix
length. -/
def percentage_moving (pace : List ℚ) (n : Nat) : ℚ :=
  ((moving_count pace : ℚ) / (n : ℚ)) * 100

/-- Computed metrics record of source lines 291-304. -/
structure ComputedMetrics where
  total_distance : ℚ
  average_pace : ℚ
  percentage_moving : ℚ
  percentage_idle : ℚ
  hr_max : ℚ
  hr_min : ℚ
  hr_start : ℚ
  hr_end : ℚ
  hr_variance : ℚ
  avg_effort_duration : ℚ
  avg_rest_duration : ℚ
  zone_percentages : List ℚ

/-- The three encoded strings of one workout detail record. -/
structure WorkoutDetail where
  time : List Char
  heart_rate : List Char
  pace : List Char

/-- Everything process_workout hands to the report sink (source line 308):
the aligned series and the computed metrics. -/
structure Report where
  timestamps : List Nat
  hr_variations : List Int
  current_hr : List ℚ
  paces : List ℚ
  metrics : ComputedMetrics

/-- Source lines 199-304 after the common prefix length guard: decode the
three streams, reconstruct the series and compute every metric. -/
def build_report (d : WorkoutDetail) (laps pool_length : ℚ) : Report :=
  let raw_times := parse_times d.time
  let hr_values := parse_hr d.heart_rate
  let raw_paces := parse_pace d.pace
  let n := num_points raw_times hr_values raw_paces
  let chr := current_hr hr_values n
  let hrv := hr_variations hr_values n
  let pp := processed_pace raw_paces n
  let er := effortRest pp
  { timestamps := generate_timestamps n
    hr_variations := hrv
    current_hr := chr
    paces := pp
    metrics :=
      { total_distance := laps * pool_length
        average_pace := if 0 < n then pp.sum / (n : ℚ) else 0
        percentage_moving := percentage_moving pp n
        percentage_idle := 100 - percentage_moving pp n
        hr_max := pyMax chr
        hr_min := pyMin chr
        hr_start := chr.getD 0 0
        hr_end := chr.getLastD 0
        hr_variance := hr_variance hrv
        avg_effort_duration := avg_duration er.1
        avg_rest_duration := avg_duration er.2
        zone_percentages := (List.range 5).map (fun j => zone_percentage chr n j) } }

/-- Source lines 191-308: a workout whose common prefix length is 0 is
skipped with a warning and produces no report; otherwise the full report is
built and exported. -/
def process_workout (d : WorkoutDetail) (laps pool_length : ℚ) : Option Report :=
  if num_points (parse_times d.time) (parse_hr d.heart_rate) (parse_pace d.pace) = 0
  then none
  else some (build_report d laps pool_length)

/-- Batch loop of source lines 326-327: each workout of the batch is processed
independently, in order. -/
def processBatch (ws : List (WorkoutDetail × ℚ × ℚ)) : List (Option Report) :=
  ws.map (fun w => process_workout w.1 w.2.1 w.2.2)

lemma cumHR_length (c : ℚ) (ds : List Int) : (cumHR c ds).length = ds.length := by
  induction ds generalizing c with
  | nil => simp [cumHR]
  | cons d ds ih => simp [cumHR, ih]

lemma current_hr_raw_length (hr : List Int) (h : hr ≠ []) :
    (current_hr_raw hr).length = hr.length := by
  match hr with
  | [] => exact absurd rfl h
  | [v] => simp [current_hr_raw, hr_differences, cumHR]
  | v :: w :: u => simp [current_hr_raw, hr_differences, cumHR, cumHR_length]

lemma current_hr_length (hr : List Int) (n : Nat) : (current_hr hr n).length = n := by
  simp [current_hr]

lemma current_hr_getD_lt_raw (hr : List Int) (n i : Nat)
    (hi : i < (current_hr_raw hr).length) (hn : i < n) :
    (current_hr hr n).getD i 0 = (current_hr_raw hr).getD i 0 := by
  have hlen : i < (current_hr hr n).length := by rw [current_hr_length]; exact hn
  rw [List.getD_eq_getElem _ _ hlen, List.getD_eq_getElem _ _ hi]
  simp only [current_hr]
  rw [List.getElem_take, List.getElem_append_left hi]

lemma current_hr_getD_ge_raw (hr : List Int) (n i : Nat)
    (hi : (current_hr_raw hr).length ≤ i) (hn : i < n) :
    (current_hr hr n).getD i 0 = (current_hr_raw hr).getLastD 0 := by
  have hlen : i < (current_hr hr n).length := by rw [current_hr_length]; exact hn
  rw [List.getD_eq_getElem _ _ hlen]
  simp only [current_hr]
  rw [List.getElem_take]
  rw [List.getElem_append_right hi]
  simp

lemma cum_succ (ds : List Int) : ∀ (c : ℚ) (i : Nat), i < ds.length →
    (c :: cumHR c ds).getD (i + 1) 0
      = (c :: cumHR c ds).getD i 0 + ((ds.getD i 0 : Int) : ℚ) := by
  induction ds with
  | nil => intro c i hi; simp at hi
  | cons d ds ih =>
    intro c i hi
    cases i with
    | zero => simp [cumHR]
    | succ j =>
      have hj : j < ds.length := by simpa using hi
      simpa [cumHR] using ih (c + (d : ℚ)) j hj

/-- C1: for every non-empty decoded heart-rate token sequence and target
length n > 0, the reconstructed absolute series has length n, starts at the
first token taken as absolute, satisfies value[i] = value[i-1] + token[i]
inside the decoded range, holds the last computed value past the decoded
range, and tokens [70, 5, -3] with target 5 give [70, 75, 72, 72, 72]. -/
theorem hr_reconstruction_correct : ∀ (hr_values : List Int) (n : Nat),
    hr_values ≠ [] → 0 < n →
    (current_hr hr_values n).length = n ∧
    (current_hr hr_values n).getD 0 0 = ((hr_values.getD 0 0 : Int) : ℚ) ∧
    (∀ i, 0 < i → i < min hr_values.length n →
      (current_hr hr_values n).getD i 0
        = (current_hr hr_values n).getD (i - 1) 0 + ((hr_values.getD i 0 : Int) : ℚ)) ∧
    (∀ i, hr_values.length ≤ i → i < n →
      (current_hr hr_values n).getD i 0 = (current_hr_raw hr_values).getLastD 0) ∧
    current_hr [70, 5, -3] 5 = [70, 75, 72, 72, 72] := by
  intro hr_values n hne hn
  have hraw := current_hr_raw_length hr_values hne
  refine ⟨current_hr_length hr_values n, ?_, ?_, ?_, ?_⟩
  · have h0 : (0 : Nat) < (current_hr_raw hr_values).length := by
      rw [hraw]; exact List.length_pos.mpr hne
    rw [current_hr_getD_lt_raw hr_values n 0 h0 hn]
    match hr_values, hne with
    | v :: t, _ => simp [current_hr_raw, base_hr]
  · intro i hi him
    have hiln : i < n := lt_of_lt_of_le him (min_le_right _ _)
    have hil : i < hr_values.length := lt_of_lt_of_le him (min_le_left _ _)
    have hil1 : i - 1 < hr_values.length := lt_of_le_of_lt (Nat.sub_le i 1) hil
    have hiln1 : i - 1 < n := lt_of_le_of_lt (Nat.sub_le i 1) hiln
    rw [current_hr_getD_lt_raw hr_values n i (by rw [hraw]; exact hil) hiln,
        current_hr_getD_lt_raw hr_values n (i - 1) (by rw [hraw]; exact hil1) hiln1]
    have hlen2 : 2 ≤ hr_values.length := by omega
    match hr_values, hil, hlen2 with
    | v :: w :: u, hil, _ =>
      obtain ⟨j, rfl⟩ : ∃ j, i = j + 1 := ⟨i - 1, (Nat.succ_pred_eq_of_pos hi).symm⟩
      have hdif : hr_differences (v :: w :: u) = w :: u := by
        simp [hr_differences]
      have hj : j < (w :: u).length := by
        simpa using Nat.lt_of_succ_lt_succ hil
      have := cum_succ (w :: u) (base_hr (v :: w :: u)) j hj
      simp only [current_hr_raw, hdif, Nat.add_sub_cancel]
      rw [this]
      simp
    | [v], hil, h2 => simp at h2
  · intro i hi hin
    exact current_hr_getD_ge_raw hr_values n i (by rw [hraw]; exact hi) hin
  · norm_num [current_hr, current_hr_raw, cumHR, hr_differences, base_hr,
      List.replicate_succ]

/-- Witness for the C1 theorem at the concrete input of the spec example. -/
theorem hr_reconstruction_correct_witness :
    current_hr [70, 5, -3] 5 = [70, 75, 72, 72, 72] :=
  (hr_reconstruction_correct [70, 5, -3] 5 (by decide) (by decide)).2.2.2.2

/-- C4: the reported heart-rate variance is the population variance of the
variation series with its leading synthetic 0 removed, is 0 whenever fewer
than 2 deltas remain, and the variation series [0, 2, -2, 2, -2] has
variance 4. -/
theorem hr_variance_correct :
    (∀ v : List Int, hr_variance v = popVariance ((v.drop 1).map (fun d => (d : ℚ)))) ∧
    (∀ v : List Int, (v.drop 1).length < 2 → hr_variance v = 0) ∧
    hr_variance [0, 2, -2, 2, -2] = 4 := by
  refine ⟨?_, ?_, ?_⟩
  · intro v
    by_cases h : v.length > 1
    · simp only [hr_variance, popVariance, if_pos h]
    · have hd : v.drop 1 = [] := by
        cases v with
        | nil => rfl
        | cons a t =>
          cases t with
          | nil => rfl
          | cons b u => simp at h
      simp [hr_variance, popVariance, h, hd]
  · intro v h
    by_cases hl : v.length > 1
    · match v, hl, h with
      | [a, b], _, _ =>
        simp [hr_variance]
      | a :: b :: c :: t, _, h => simp at h; omega
    · simp [hr_variance, hl]
  · norm_num [hr_variance]

/-- Witness for the C4 theorem: a two-element variation series leaves a
single delta, so the variance is 0. -/
theorem hr_variance_correct_witness : hr_variance [0, 5] = 0 :=
  hr_variance_correct.2.1 [0, 5] (by decide)

lemma firstZone_mem : ∀ (zs : List (ℚ × ℚ)) (h : ℚ) (j : Nat),
    firstZone h zs = some j →
    j < zs.length ∧ (zs.getD j (0, 0)).1 ≤ h ∧ h < (zs.getD j (0, 0)).2 := by
  intro zs
  induction zs with
  | nil => intro h j hj; simp [firstZone] at hj
  | cons z zs ih =>
    intro h j hj
    by_cases c : z.1 ≤ h ∧ h < z.2
    · simp [firstZone, c] at hj
      subst hj
      simpa using c
    · simp [firstZone, c] at hj
      obtain ⟨j', hj', rfl⟩ := hj
      obtain ⟨h1, h2, h3⟩ := ih h j' hj'
      exact ⟨by simpa using Nat.succ_lt_succ h1, by simpa using h2, by simpa using h3⟩

lemma firstZone_eq_some : ∀ (zs : List (ℚ × ℚ)) (h : ℚ) (j : Nat),
    j < zs.length → (zs.getD j (0, 0)).1 ≤ h → h < (zs.getD j (0, 0)).2 →
    (∀ k, k < j → ¬((zs.getD k (0, 0)).1 ≤ h ∧ h < (zs.getD k (0, 0)).2)) →
    firstZone h zs = some j := by
  intro zs
  induction zs with
  | nil => intro h j hj; simp at hj
  | cons z zs ih =>
    intro h j hj hlo hhi hmin
    cases j with
    | zero =>
      simp only [List.getD_cons_zero] at hlo hhi
      simp [firstZone, hlo, hhi]
    | succ j' =>
      have hz : ¬(z.1 ≤ h ∧ h < z.2) := by
        have := hmin 0 (Nat.succ_pos j')
        simpa using this
      simp only [List.getD_cons_succ] at hlo hhi
      have hrec := ih h j' (by simpa using hj) hlo hhi
        (fun k hk => by
          have := hmin (k + 1) (Nat.succ_lt_succ hk)
          simpa using this)
      simp [firstZone, hz, hrec]

lemma firstZone_eq_none : ∀ (zs : List (ℚ × ℚ)) (h : ℚ),
    (∀ k, k < zs.length → ¬((zs.getD k (0, 0)).1 ≤ h ∧ h < (zs.getD k (0, 0)).2)) →
    firstZone h zs = none := by
  intro zs
  induction zs with
  | nil => intro h _; rfl
  | cons z zs ih =>
    intro h hall
    have hz : ¬(z.1 ≤ h ∧ h < z.2) := by
      have := hall 0 (by simp)
      simpa using this
    have hrec := ih h (fun k hk => by
      have := hall (k + 1) (by simpa using Nat.succ_lt_succ hk)
      simpa using this)
    simp [firstZone, hz, hrec]

lemma hr_zones_length : hr_zones.length = 5 := by simp [hr_zones]

lemma zone_bounds_mono : ∀ j k : Nat, j < k → k < 5 → zone_high j ≤ zone_low k := by
  intro j k hjk hk5
  interval_cases k <;> interval_cases j <;>
    norm_num [zone_low, zone_high, hr_zones, hr_max_theoretical]

lemma zone_low_ge_half : ∀ k : Nat, k < 5 → 0.5 * hr_max_theoretical ≤ zone_low k := by
  intro k hk
  interval_cases k <;> norm_num [zone_low, hr_zones, hr_max_theoretical]

lemma zone_high_le_max : ∀ k : Nat, k < 5 → zone_high k ≤ hr_max_theoretical := by
  intro k hk
  interval_cases k <;> norm_num [zone_high, hr_zones, hr_max_theoretical]

lemma firstZone_none_outside (h : ℚ)
    (hout : h < 0.5 * hr_max_theoretical ∨ hr_max_theoretical ≤ h) :
    firstZone h hr_zones = none := by
  apply firstZone_eq_none
  intro k hk
  rw [hr_zones_length] at hk
  rintro ⟨hlo, hhi⟩
  rcases hout with hlt | hge
  · have := zone_low_ge_half k hk
    have : (0.5 : ℚ) * hr_max_theoretical ≤ h := le_trans this hlo
    linarith
  · have := zone_high_le_max k hk
    have : h < hr_max_theoretical := lt_of_lt_of_le hhi this
    linarith

/-- C3: every sample lies in at most one of the five bands, the classification
loop assigns a sample exactly to the band containing it (the first in listed
order), samples below 50 percent or at or above 100 percent of the maximum are
counted in no band, each zone percentage is that band's count over the total
sample count times 100, and a series entirely outside the bands has zone
percentages summing to 0. -/
theorem zone_classification_correct :
    (∀ (h : ℚ) (j k : Nat), memZone j h → memZone k h → j = k) ∧
    (∀ (h : ℚ) (j : Nat), firstZone h hr_zones = some j ↔ memZone j h) ∧
    (∀ h : ℚ, h < 0.5 * hr_max_theoretical ∨ hr_max_theoretical ≤ h →
      firstZone h hr_zones = none) ∧
    (∀ (hrs : List ℚ) (j : Nat),
      zone_percentage hrs hrs.length j
        = ((zone_count hrs j : ℚ) / (hrs.length : ℚ)) * 100) ∧
    (∀ (hrs : List ℚ) (n : Nat),
      ((∀ h ∈ hrs, h < 0.5 * hr_max_theoretical) ∨
        (∀ h ∈ hrs, hr_max_theoretical ≤ h)) →
      ((List.range 5).map (fun j => zone_percentage hrs n j)).sum = 0) := by
  refine ⟨?_, ?_, ?_, ?_, ?_⟩
  · rintro h j k ⟨hj5, hjl, hjh⟩ ⟨hk5, hkl, hkh⟩
    rw [hr_zones_length] at hj5 hk5
    rcases Nat.lt_trichotomy j k with hlt | heq | hgt
    · exfalso
      have := zone_bounds_mono j k hlt hk5
      linarith
    · exact heq
    · exfalso
      have := zone_bounds_mono k j hgt hj5
      linarith
  · intro h j
    constructor
    · intro hj
      obtain ⟨h1, h2, h3⟩ := firstZone_mem hr_zones h j hj
      exact ⟨h1, h2, h3⟩
    · rintro ⟨hj5, hjl, hjh⟩
      apply firstZone_eq_some hr_zones h j hj5 hjl hjh
      intro k hk
      rintro ⟨hkl, hkh⟩
      have hj5n : j < 5 := by rwa [hr_zones_length] at hj5
      have hmono := zone_bounds_mono k j hk hj5n
      rw [zone_high, zone_low] at hmono
      rw [zone_low] at hjl
      linarith
  · exact firstZone_none_outside
  · intro hrs j
    rfl
  · intro hrs n hout
    have hz : ∀ j : Nat, zone_count hrs j = 0 := by
      intro j
      rw [zone_count, List.countP_eq_zero]
      intro h hh
      have hnone : firstZone h hr_zones = none := by
        apply firstZone_none_outside
        rcases hout with ha | hb
        · exact Or.inl (ha h hh)
        · exact Or.inr (hb h hh)
      simp [hnone]
    simp [zone_percentage, hz]

/-- Witness for the C3 theorem: the sample 0 lies below half the maximum and
is counted in no band. -/
theorem zone_classification_correct_witness : firstZone 0 hr_zones = none :=
  zone_classification_correct.2.2.1 0 (Or.inl (by norm_num [hr_max_theoretical]))

lemma segFlush_foldl_runs : ∀ (ps : List ℚ) (eff rest : List Nat) (st : Bool) (dur : Nat),
    segFlush (ps.foldl segStep ⟨eff, rest, st, dur⟩)
      = (eff ++ ((runsAux st dur (ps.map (fun p => decide (0 < p)))).filter
            (fun r => r.1)).map (fun r => r.2),
         rest ++ ((runsAux st dur (ps.map (fun p => decide (0 < p)))).filter
            (fun r => !r.1)).map (fun r => r.2)) := by
  intro ps
  induction ps with
  | nil =>
    intro eff rest st dur
    cases st <;> simp [segFlush, runsAux]
  | cons p ps ih =>
    intro eff rest st dur
    by_cases hp : 0 < p
    · cases st
      · have hstep : segStep ⟨eff, rest, false, dur⟩ p = ⟨eff, rest ++ [dur], true, 1⟩ := by
          simp [segStep, hp]
        rw [List.foldl_cons, hstep, ih]
        simp [runsAux, hp, List.append_assoc]
      · have hstep : segStep ⟨eff, rest, true, dur⟩ p = ⟨eff, rest, true, dur + 1⟩ := by
          simp [segStep, hp]
        rw [List.foldl_cons, hstep, ih]
        simp [runsAux, hp]
    · cases st
      · have hstep : segStep ⟨eff, rest, false, dur⟩ p = ⟨eff, rest, false, dur + 1⟩ := by
          simp [segStep, hp]
        rw [List.foldl_cons, hstep, ih]
        simp [runsAux, hp]
      · have hstep : segStep ⟨eff, rest, true, dur⟩ p = ⟨eff ++ [dur], rest, false, 1⟩ := by
          simp [segStep, hp]
        rw [List.foldl_cons, hstep, ih]
        simp [runsAux, hp, List.append_assoc]

lemma effortRest_eq_runs (pace : List ℚ) (hne : pace ≠ []) (hpos : ∀ p ∈ pace, 0 ≤ p) :
    effortRest pace = (effortRuns pace, restRuns pace) := by
  match pace, hne with
  | p0 :: ps, _ =>
    have hst : initial_state (p0 :: ps) = decide (0 < p0) := by
      have h0 : 0 ≤ p0 := hpos p0 (by simp)
      by_cases hz : p0 = 0
      · simp [initial_state, hz]
      · have hlt : 0 < p0 := lt_of_le_of_ne h0 (Ne.symm hz)
        simp [initial_state, hz, hlt]
    simp only [effortRest, hst]
    rw [segFlush_foldl_runs (p0 :: ps) [] [] (decide (0 < p0)) 0]
    have hshift : runsAux (decide (0 < p0)) 0 ((p0 :: ps).map (fun p => decide (0 < p)))
        = runsAux (decide (0 < p0)) 1 (ps.map (fun p => decide (0 < p))) := by
      simp [runsAux]
    rw [hshift]
    simp [effortRuns, restRuns, maximalRuns]

lemma segStep_total (s : SegState) (p : ℚ) :
    (segStep s p).effort_durations.sum + (segStep s p).rest_durations.sum
        + (segStep s p).duration
      = s.effort_durations.sum + s.rest_durations.sum + s.duration + 1 := by
  by_cases hp : 0 < p <;> cases hs : s.state <;> simp [segStep, hp, hs] <;> omega

lemma foldl_total : ∀ (ps : List ℚ) (s : SegState),
    (ps.foldl segStep s).effort_durations.sum + (ps.foldl segStep s).rest_durations.sum
        + (ps.foldl segStep s).duration
      = s.effort_durations.sum + s.rest_durations.sum + s.duration + ps.length := by
  intro ps
  induction ps with
  | nil => intro s; simp
  | cons p ps ih =>
    intro s
    rw [List.foldl_cons, ih (segStep s p), segStep_total]
    simp
    omega

lemma segFlush_sum (s : SegState) :
    (segFlush s).1.sum + (segFlush s).2.sum
      = s.effort_durations.sum + s.rest_durations.sum + s.duration := by
  cases hs : s.state <;> simp [segFlush, hs] <;> omega

lemma segFlush_nonempty (s : SegState) : (segFlush s).1 ≠ [] ∨ (segFlush s).2 ≠ [] := by
  cases hs : s.state
  · right
    simp [segFlush, hs]
  · left
    simp [segFlush, hs]

lemma segStep_ge_one (s : SegState) (p : ℚ)
    (he : ∀ d ∈ s.effort_durations, 1 ≤ d) (hrs : ∀ d ∈ s.rest_durations, 1 ≤ d)
    (hd : 1 ≤ s.duration) :
    (∀ d ∈ (segStep s p).effort_durations, 1 ≤ d) ∧
    (∀ d ∈ (segStep s p).rest_durations, 1 ≤ d) ∧ 1 ≤ (segStep s p).duration := by
  by_cases hp : 0 < p <;> cases hst : s.state <;>
    simp only [segStep, hp, hst, if_true, if_false, ite_true, ite_false,
      Bool.false_eq_true, not_false_eq_true, not_true_eq_false] <;>
    refine ⟨?_, ?_, ?_⟩ <;>
    simp_all [List.forall_mem_append] <;>
    aesop

lemma foldl_ge_one : ∀ (ps : List ℚ) (s : SegState),
    (∀ d ∈ s.effort_durations, 1 ≤ d) → (∀ d ∈ s.rest_durations, 1 ≤ d) →
    1 ≤ s.duration →
    (∀ d ∈ (ps.foldl segStep s).effort_durations, 1 ≤ d) ∧
    (∀ d ∈ (ps.foldl segStep s).rest_durations, 1 ≤ d) ∧
    1 ≤ (ps.foldl segStep s).duration := by
  intro ps
  induction ps with
  | nil => intro s he hrs hd; exact ⟨he, hrs, hd⟩
  | cons p ps ih =>
    intro s he hrs hd
    rw [List.foldl_cons]
    obtain ⟨h1, h2, h3⟩ := segStep_ge_one s p he hrs hd
    exact ih (segStep s p) h1 h2 h3

lemma segFlush_ge_one (s : SegState)
    (he : ∀ d ∈ s.effort_durations, 1 ≤ d) (hrs : ∀ d ∈ s.rest_durations, 1 ≤ d)
    (hd : 1 ≤ s.duration) :
    ∀ d ∈ (segFlush s).1 ++ (segFlush s).2, 1 ≤ d := by
  cases hst : s.state <;> simp_all [segFlush, List.forall_mem_append] <;> aesop

lemma runsAux_all_eq (b : Bool) : ∀ (bs : List Bool) (n : Nat),
    (∀ c ∈ bs, c = b) → runsAux b n bs = [(b, n + bs.length)] := by
  intro bs
  induction bs with
  | nil => intro n _; simp [runsAux]
  | cons c cs ih =>
    intro n hall
    have hc : c = b := hall c (by simp)
    have hrec := ih (n + 1) (fun x hx => hall x (by simp [hx]))
    rw [runsAux, if_pos hc, hrec]
    have : n + 1 + cs.length = n + (c :: cs).length := by simp; omega
    rw [this]

lemma effortRest_all_pos (pace : List ℚ) (hne : pace ≠ [])
    (hpos : ∀ p ∈ pace, 0 < p) :
    effortRest pace = ([pace.length], []) := by
  rw [effortRest_eq_runs pace hne (fun p hp => le_of_lt (hpos p hp))]
  match pace, hne with
  | p0 :: ps, _ =>
    have h0 : decide (0 < p0) = true := by simp [hpos p0 (by simp)]
    have hall : ∀ c ∈ ps.map (fun p => decide (0 < p)), c = true := by
      intro c hc
      obtain ⟨p, hp, rfl⟩ := List.mem_map.mp hc
      simp [hpos p (by simp [hp])]
    have hruns : maximalRuns (decide (0 < p0) :: ps.map (fun p => decide (0 < p)))
        = [(true, 1 + ps.length)] := by
      simp only [h0, maximalRuns]
      rw [runsAux_all_eq true (ps.map (fun p => decide (0 < p))) 1
        (by simpa using hall), List.length_map]
    simp only [effortRuns, restRuns, List.map_cons, hruns]
    simp [Nat.add_comm]

/-- C2: on non-negative pace series the segmenter starts idle exactly when the
first sample is 0, records precisely the maximal same-state run lengths into
effort_durations (positive runs) and rest_durations (zero runs) including the
final flush, and reports each list's mean (0 when empty); the spec examples
[0,0,5,5,5,0] and the all-positive series come out as stated. -/
theorem effort_rest_segmenter_correct :
    (∀ (p0 : ℚ) (ps : List ℚ), initial_state (p0 :: ps) = false ↔ p0 = 0) ∧
    (∀ pace : List ℚ, pace ≠ [] → (∀ p ∈ pace, 0 ≤ p) →
      effortRest pace = (effortRuns pace, restRuns pace)) ∧
    (effortRest [0, 0, 5, 5, 5, 0] = ([3], [2, 1]) ∧
      avg_duration (effortRest [0, 0, 5, 5, 5, 0]).1 = 3 ∧
      avg_duration (effortRest [0, 0, 5, 5, 5, 0]).2 = 3 / 2) ∧
    (∀ pace : List ℚ, pace ≠ [] → (∀ p ∈ pace, 0 < p) →
      effortRest pace = ([pace.length], []) ∧
      avg_duration (effortRest pace).2 = 0) := by
  refine ⟨?_, effortRest_eq_runs, ?_, ?_⟩
  · intro p0 ps
    by_cases hz : p0 = 0 <;> simp [initial_state, hz]
  · have hc : effortRest [0, 0, 5, 5, 5, 0] = ([3], [2, 1]) := by decide
    refine ⟨hc, ?_, ?_⟩ <;> rw [hc] <;> simp [avg_duration]
  · intro pace hne hpos
    have h := effortRest_all_pos pace hne hpos
    exact ⟨h, by rw [h]; simp [avg_duration]⟩

/-- Witness for the C2 theorem: an all-positive two-sample series yields one
effort run of length 2 and no rest runs. -/
theorem effort_rest_segmenter_correct_witness :
    effortRest [1, 1] = ([2], []) :=
  (effort_rest_segmenter_correct.2.2.2 [1, 1] (by decide) (by decide)).1

/-- C9 counterexample: the pace series [-1] is a reachable processed pace
series (raw token -1 parses), yet the automaton records the zero-length run 0
into effort_durations, so not every recorded duration is at least 1. -/
theorem segmenter_partition_counterexample :
    processed_pace [['-', '1']] 1 = [(-1 : ℚ)] ∧
    effortRest [(-1 : ℚ)] = ([0], [1]) ∧
    ¬ (∀ d ∈ (effortRest [(-1 : ℚ)]).1 ++ (effortRest [(-1 : ℚ)]).2, 1 ≤ d) := by
  refine ⟨by decide, by decide, ?_⟩
  intro hall
  have := hall 0 (by decide)
  omega

/-- C9 amended: for every non-empty pace series the recorded effort and rest
durations sum to the series length and at least one list is non-empty; every
recorded duration is at least 1 provided the first sample is non-negative
(with a negative first sample a zero-length effort run is recorded). -/
theorem segmenter_partition_amended : ∀ pace : List ℚ, pace ≠ [] →
    ((effortRest pace).1.sum + (effortRest pace).2.sum = pace.length) ∧
    ((effortRest pace).1 ≠ [] ∨ (effortRest pace).2 ≠ []) ∧
    (0 ≤ pace.headD 0 → ∀ d ∈ (effortRest pace).1 ++ (effortRest pace).2, 1 ≤ d) := by
  intro pace hne
  match pace, hne with
  | p0 :: ps, _ =>
    refine ⟨?_, ?_, ?_⟩
    · have h1 := segFlush_sum ((p0 :: ps).foldl segStep
        ⟨[], [], initial_state (p0 :: ps), 0⟩)
      have h2 := foldl_total (p0 :: ps) ⟨[], [], initial_state (p0 :: ps), 0⟩
      simp only [effortRest]
      rw [h1, h2]
      simp
    · simp only [effortRest]
      exact segFlush_nonempty _
    · intro hph
      have h0 : 0 ≤ p0 := by simpa using hph
      have hstep : segStep ⟨[], [], initial_state (p0 :: ps), 0⟩ p0
          = ⟨[], [], initial_state (p0 :: ps), 1⟩ := by
        by_cases hz : p0 = 0
        · simp [initial_state, hz, segStep]
        · have hlt : 0 < p0 := lt_of_le_of_ne h0 (Ne.symm hz)
          simp [initial_state, hz, segStep, hlt]
      simp only [effortRest, List.foldl_cons, hstep]
      obtain ⟨he, hrs, hd⟩ := foldl_ge_one ps ⟨[], [], initial_state (p0 :: ps), 1⟩
        (by simp) (by simp) (by simp)
      exact segFlush_ge_one _ he hrs hd

/-- Witness for the amended C9 theorem on the one-sample series [5]. -/
theorem segmenter_partition_amended_witness :
    (effortRest [(5 : ℚ)]).1.sum + (effortRest [(5 : ℚ)]).2.sum = 1 :=
  (segmenter_partition_amended [5] (by decide)).1

lemma hrTokens_eq_filterMap : ∀ segs : List (List Char),
    hrTokens segs = segs.filterMap (fun seg =>
      match splitOnSep ',' seg with
      | _ :: p1 :: _ => some ((pyInt p1).getD 0)
      | _ => none) := by
  intro segs
  induction segs with
  | nil => rfl
  | cons seg rest ih =>
    cases hsp : splitOnSep ',' seg with
    | nil => simp [hrTokens, List.filterMap_cons, hsp, ih]
    | cons a t =>
      cases t with
      | nil => simp [hrTokens, List.filterMap_cons, hsp, ih]
      | cons p1 u => simp [hrTokens, List.filterMap_cons, hsp, ih]

lemma hrTokens_length : ∀ segs : List (List Char),
    (hrTokens segs).length
      = segs.countP (fun seg => decide ((splitOnSep ',' seg).length > 1)) := by
  intro segs
  induction segs with
  | nil => rfl
  | cons seg rest ih =>
    cases hsp : splitOnSep ',' seg with
    | nil => simp [hrTokens, List.countP_cons, hsp, ih]
    | cons a t =>
      cases t with
      | nil => simp [hrTokens, List.countP_cons, hsp, ih]
      | cons p1 u => simp [hrTokens, List.countP_cons, hsp, ih]

/-- C5 counterexample: the raw heart-rate string 1,70;bad has two non-empty
segments but decodes to the single token [70]: the comma-less segment bad is
skipped entirely rather than contributing a 0 token, so the output length is
not the number of non-empty segments. -/
theorem hr_decoder_counterexample :
    parse_hr ['1', ',', '7', '0', ';', 'b', 'a', 'd'] = [70] ∧
    ((splitOnSep ';' ['1', ',', '7', '0', ';', 'b', 'a', 'd']).filter
      (fun seg => !seg.isEmpty)).length = 2 ∧
    (parse_hr ['1', ',', '7', '0', ';', 'b', 'a', 'd']).length ≠
      ((splitOnSep ';' ['1', ',', '7', '0', ';', 'b', 'a', 'd']).filter
        (fun seg => !seg.isEmpty)).length := by
  decide

/-- C5 amended: the decoder splits on the semicolon and keeps the non-empty
segments; every such segment with at least two comma-delimited fields yields
exactly one token (its second field parsed as an integer, 0 when malformed,
so one bad token never fails the whole decode), while a segment with no comma
yields no token; hence the output length is the number of non-empty segments
that contain a comma. -/
theorem hr_decoder_amended : ∀ s : List Char,
    parse_hr s = ((splitOnSep ';' s).filter (fun seg => !seg.isEmpty)).filterMap
      (fun seg =>
        match splitOnSep ',' seg with
        | _ :: p1 :: _ => some ((pyInt p1).getD 0)
        | _ => none) ∧
    (parse_hr s).length
      = ((splitOnSep ';' s).filter (fun seg => !seg.isEmpty)).countP
          (fun seg => decide ((splitOnSep ',' seg).length > 1)) := by
  intro s
  by_cases hs : s = []
  · subst hs
    exact ⟨rfl, rfl⟩
  · rw [parse_hr, if_neg hs]
    exact ⟨hrTokens_eq_filterMap _, hrTokens_length _⟩

lemma floatList_all_some : ∀ l : List (List Char), (∀ t ∈ l, (pyFloat t).isSome) →
    floatList l = some (l.map (fun t => (pyFloat t).getD 0)) := by
  intro l
  induction l with
  | nil => intro _; rfl
  | cons x xs ih =>
    intro h
    obtain ⟨v, hv⟩ := Option.isSome_iff_exists.mp (h x (by simp))
    have hrec := ih (fun t ht => h t (by simp [ht]))
    simp [floatList, hv, hrec]

lemma floatList_none : ∀ l : List (List Char), (∃ t ∈ l, pyFloat t = none) →
    floatList l = none := by
  intro l
  induction l with
  | nil => rintro ⟨t, ht, _⟩; simp at ht
  | cons x xs ih =>
    rintro ⟨t, ht, hnone⟩
    rcases List.mem_cons.mp ht with rfl | htl
    · simp [floatList, hnone]
    · have hrec := ih ⟨t, htl, hnone⟩
      cases hx : pyFloat x <;> simp [floatList, hx, hrec]

lemma splitOnSep_mem_chars : ∀ (sep : Char) (l : List Char) (piece : List Char),
    piece ∈ splitOnSep sep l → ∀ c ∈ piece, c ∈ l := by
  intro sep l
  induction l with
  | nil =>
    intro piece hp c hc
    simp [splitOnSep] at hp
    subst hp
    simp at hc
  | cons a l ih =>
    intro piece hp c hc
    by_cases ha : a = sep
    · rw [splitOnSep, if_pos ha] at hp
      rcases List.mem_cons.mp hp with rfl | hp'
      · simp at hc
      · exact List.mem_cons_of_mem a (ih piece hp' c hc)
    · rw [splitOnSep, if_neg ha] at hp
      cases hsp : splitOnSep sep l with
      | nil =>
        rw [hsp] at hp
        simp at hp
        subst hp
        simp at hc
        simp [hc]
      | cons p ps =>
        rw [hsp] at hp
        rcases List.mem_cons.mp hp with rfl | hp'
        · rcases List.mem_cons.mp hc with rfl | hc'
          · simp
          · exact List.mem_cons_of_mem a (ih p (by rw [hsp]; simp) c hc')
        · exact List.mem_cons_of_mem a (ih piece (by rw [hsp]; simp [hp']) c hc)

lemma strip_mem_chars (s : List Char) : ∀ c ∈ strip s, c ∈ s := by
  intro c hc
  rw [strip] at hc
  rw [List.mem_reverse] at hc
  have h1 := (List.dropWhile_sublist (l := (s.dropWhile pySpace).reverse)
    (p := pySpace)).mem hc
  rw [List.mem_reverse] at h1
  exact (List.dropWhile_sublist (l := s) (p := pySpace)).mem h1

lemma parse_pace_no_comma : ∀ s : List Char, ∀ t ∈ parse_pace s, ',' ∉ t := by
  intro s t ht hc
  simp only [parse_pace, List.mem_filter, List.mem_map] at ht
  obtain ⟨⟨piece, hpiece, rfl⟩, _⟩ := ht
  have h1 : ',' ∈ piece := strip_mem_chars piece ',' hc
  have h2 : (',' : Char) ∈ s.map (fun c => if c = ',' then '.' else c) :=
    splitOnSep_mem_chars ';' _ piece hpiece ',' h1
  obtain ⟨c, _, heq⟩ := List.mem_map.mp h2
  by_cases hcc : c = ',' <;> simp [hcc] at heq

/-- C6: the pace decoder replaces every comma by a period before splitting so
no token contains a comma; on the token sequence truncated to the target
length, if every token parses the series is the parsed values in order, and
if any token fails the entire series becomes zeros of the target length; the
locale-normalized string 1,5;2,0 decodes to values 3/2 and 2. -/
theorem pace_decoder_correct :
    (∀ s : List Char, ∀ t ∈ parse_pace s, ',' ∉ t) ∧
    (∀ (raw : List (List Char)) (n : Nat), (∀ t ∈ raw.take n, (pyFloat t).isSome) →
      processed_pace raw n = (raw.take n).map (fun t => (pyFloat t).getD 0)) ∧
    (∀ (raw : List (List Char)) (n : Nat), (∃ t ∈ raw.take n, pyFloat t = none) →
      processed_pace raw n = List.replicate n 0) ∧
    (parse_pace ['1', ',', '5', ';', '2', ',', '0']
        = [['1', '.', '5'], ['2', '.', '0']] ∧
      processed_pace (parse_pace ['1', ',', '5', ';', '2', ',', '0']) 2
        = [3 / 2, 2]) := by
  refine ⟨parse_pace_no_comma, ?_, ?_, ?_⟩
  · intro raw n h
    simp [processed_pace, floatList_all_some (raw.take n) h]
  · intro raw n h
    simp [processed_pace, floatList_none (raw.take n) h]
  · have hp : parse_pace ['1', ',', '5', ';', '2', ',', '0']
        = [['1', '.', '5'], ['2', '.', '0']] := by decide
    refine ⟨hp, ?_⟩
    rw [hp]
    have h15 : pyFloat ['1', '.', '5'] = some (3 / 2 : ℚ) := by
      have h : pyFloat ['1', '.', '5'] = some ((digitsVal ['1'] : ℚ)
          + (digitsVal ['5'] : ℚ) / 10 ^ (['5'] : List Char).length) := rfl
      have d1 : digitsVal ['1'] = 1 := by decide
      have d5 : digitsVal ['5'] = 5 := by decide
      rw [h, d1, d5]
      norm_num
    have h20 : pyFloat ['2', '.', '0'] = some (2 : ℚ) := by
      have h : pyFloat ['2', '.', '0'] = some ((digitsVal ['2'] : ℚ)
          + (digitsVal ['0'] : ℚ) / 10 ^ (['0'] : List Char).length) := rfl
      have d2 : digitsVal ['2'] = 2 := by decide
      have d0 : digitsVal ['0'] = 0 := by decide
      rw [h, d2, d0]
      norm_num
    simp [processed_pace, floatList, h15, h20]

/-- Witness for the C6 theorem: with every token of the truncated sequence
parsing, the processed series is the parsed values in order. -/
theorem pace_decoder_correct_witness :
    processed_pace [['1']] 1 = ([['1']].take 1).map (fun t => (pyFloat t).getD 0) :=
  pace_decoder_correct.2.1 [['1']] 1 (by decide)

lemma floatList_length : ∀ (l : List (List Char)) (vs : List ℚ),
    floatList l = some vs → vs.length = l.length := by
  intro l
  induction l with
  | nil => intro vs h; simp [floatList] at h; subst h; rfl
  | cons x xs ih =>
    intro vs h
    cases hx : pyFloat x with
    | none => rw [floatList, hx] at h; simp at h
    | some v =>
      cases hxs : floatList xs with
      | none => rw [floatList, hx, hxs] at h; simp at h
      | some ws =>
        rw [floatList, hx, hxs] at h
        simp at h
        subst h
        simp [ih ws hxs]

lemma processed_pace_length (raw : List (List Char)) (n : Nat) (h : n ≤ raw.length) :
    (processed_pace raw n).length = n := by
  cases hfl : floatList (raw.take n) with
  | none => simp [processed_pace, hfl]
  | some vs =>
    have := floatList_length (raw.take n) vs hfl
    simp [processed_pace, hfl, this, List.length_take]
    omega

lemma zero_cons_diffs_length (hr : List Int) (hne : hr ≠ []) :
    ((0 : Int) :: hr_differences hr).length = hr.length := by
  match hr, hne with
  | [v], _ => simp [hr_differences]
  | v :: w :: u, _ => simp [hr_differences]

lemma hr_variations_length (hr : List Int) (n : Nat) (hne : hr ≠ [])
    (hn : n ≤ hr.length) : (hr_variations hr n).length = n := by
  rw [hr_variations, List.length_take, zero_cons_diffs_length hr hne]
  omega

/-- C10: with a positive common prefix length n, the decoded heart-rate token
sequence is non-empty (the default 70 is never used), the variation series
needs truncation only (its pre-truncation length is the token count, at least
n), and the absolute HR, variation, pace and timestamp series all have length
exactly n, so all per-index accesses 0..n-1 during row emission are in
bounds. -/
theorem series_lengths_safe : ∀ (raw_times : List (List Char))
    (hr_values : List Int) (raw_paces : List (List Char)) (n : Nat),
    n = num_points raw_times hr_values raw_paces → 0 < n →
    hr_values ≠ [] ∧
    base_hr hr_values = ((hr_values.getD 0 0 : Int) : ℚ) ∧
    ((0 : Int) :: hr_differences hr_values).length = hr_values.length ∧
    n ≤ hr_values.length ∧
    (hr_variations hr_values n).length = n ∧
    (current_hr hr_values n).length = n ∧
    (processed_pace raw_paces n).length = n ∧
    (generate_timestamps n).length = n ∧
    (∀ i, i < n →
      i < (hr_variations hr_values n).length ∧
      i < (current_hr hr_values n).length ∧
      i < (processed_pace raw_paces n).length) := by
  intro raw_times hr_values raw_paces n hn hpos
  have hhr : n ≤ hr_values.length := by
    rw [hn, num_points]
    omega
  have hpc : n ≤ raw_paces.length := by
    rw [hn, num_points]
    omega
  have hne : hr_values ≠ [] := by
    intro h
    subst h
    simp at hhr
    omega
  have hv := hr_variations_length hr_values n hne hhr
  have hc := current_hr_length hr_values n
  have hp := processed_pace_length raw_paces n hpc
  refine ⟨hne, ?_, zero_cons_diffs_length hr_values hne, hhr, hv, hc, hp, ?_, ?_⟩
  · match hr_values, hne with
    | v :: t, _ => simp [base_hr]
  · simp [generate_timestamps]
  · intro i hi
    exact ⟨by omega, by omega, by omega⟩

/-- Witness for the C10 theorem at a one-sample workout. -/
theorem series_lengths_safe_witness : ([70] : List Int) ≠ [] :=
  (series_lengths_safe [['1']] [70] [['0']] 1 (by decide) (by decide)).1

/-- C7: for every workout passing the positive prefix guard, the report's
moving percentage equals the count of positive pace samples over the pace
series length times 100, the idle percentage is 100 minus the moving
percentage, and the total distance is lap count times pool length. -/
theorem aggregate_metrics_correct : ∀ (d : WorkoutDetail) (laps pool_length : ℚ),
    0 < num_points (parse_times d.time) (parse_hr d.heart_rate) (parse_pace d.pace) →
    (build_report d laps pool_length).paces ≠ [] ∧
    (build_report d laps pool_length).metrics.percentage_moving
      = (((build_report d laps pool_length).paces.countP
            (fun p => decide (0 < p)) : ℚ)
          / ((build_report d laps pool_length).paces.length : ℚ)) * 100 ∧
    (build_report d laps pool_length).metrics.percentage_idle
      = 100 - (build_report d laps pool_length).metrics.percentage_moving ∧
    (build_report d laps pool_length).metrics.total_distance = laps * pool_length := by
  intro d laps pool_length hpos
  have hpc : num_points (parse_times d.time) (parse_hr d.heart_rate)
      (parse_pace d.pace) ≤ (parse_pace d.pace).length := by
    rw [num_points]
    omega
  have hlen := processed_pace_length (parse_pace d.pace)
    (num_points (parse_times d.time) (parse_hr d.heart_rate) (parse_pace d.pace)) hpc
  simp only [build_report]
  refine ⟨?_, ?_, ?_, ?_⟩
  · rw [← List.length_pos, hlen]
    exact hpos
  · rw [hlen, percentage_moving, moving_count]
  · trivial
  · trivial

/-- Witness for the C7 theorem at a one-sample workout. -/
theorem aggregate_metrics_correct_witness :
    (build_report ⟨['1'], ['1', ',', '7', '0'], ['0']⟩ 2 25).metrics.total_distance
      = 2 * 25 :=
  (aggregate_metrics_correct ⟨['1'], ['1', ',', '7', '0'], ['0']⟩ 2 25 (by decide)).2.2.2

/-- C8: a workout whose common prefix length is 0 produces no report, and each
workout of a batch is processed independently, so the other entries of the
batch are unaffected. -/
theorem empty_prefix_skip_correct :
    (∀ (d : WorkoutDetail) (laps pool_length : ℚ),
      num_points (parse_times d.time) (parse_hr d.heart_rate) (parse_pace d.pace) = 0 →
      process_workout d laps pool_length = none) ∧
    (∀ (l r : List (WorkoutDetail × ℚ × ℚ)) (w : WorkoutDetail × ℚ × ℚ),
      processBatch (l ++ w :: r)
        = processBatch l ++ process_workout w.1 w.2.1 w.2.2 :: processBatch r) := by
  constructor
  · intro d laps pool_length h
    simp [process_workout, h]
  · intro l r w
    simp [processBatch]

/-- Witness for the C8 theorem: a workout with three empty streams has common
prefix length 0 and is skipped. -/
theorem empty_prefix_skip_correct_witness :
    process_workout ⟨[], [], []⟩ 0 0 = none :=
  empty_prefix_skip_correct.1 ⟨[], [], []⟩ 0 0 (by decide)
